import Mathlib

set_option linter.unusedSectionVars false
set_option linter.unusedVariables false

/-!
Verification of the partitioned-reducer / gradient-trainer specification
of the sparkcourse repository.

The repository's two notebooks call an external engine for the core
primitives (partitioned key reduction, SGD training, feature scaling).
Following the specification document, the core primitives are modelled
here from the spec's own contract descriptions (sections 4.1 and 4.2),
while the glue logic actually present in the notebooks (tokenisation,
lower-casing, stop-word filtering, metric formulas) is embedded directly
from the notebook code.
-/

namespace Reducer

variable {K V : Type} [DecidableEq K]

/-- Modelled from the spec: section 4.1 local combine.  One fold step of
`reduceByKey`: fold a record `(k, v)` into a partial mapping, applying
`combine` when the key is already present (the engine's implementation is
not in the repository). -/
def insertKV (combine : V → V → V) (m : K → Option V) (r : K × V) : K → Option V :=
  fun k =>
    if k = r.1 then
      match m r.1 with
      | none => some r.2
      | some w => some (combine w r.2)
    else m k

/-- Modelled from the spec: section 4.1 local combine.  Fold all records of
one partition into a partial mapping. -/
def localAgg (combine : V → V → V) (xs : List (K × V)) : K → Option V :=
  xs.foldl (insertKV combine) (fun _ => none)

/-- Modelled from the spec: section 4.1 merge.  Combine two partial
mappings pointwise, applying `combine` when a key appears in both. -/
def mergeOpt (combine : V → V → V) : Option V → Option V → Option V
  | none, o => o
  | some v, none => some v
  | some v, some w => some (combine v w)

/-- Modelled from the spec: section 4.1 merge of two partial mappings. -/
def mergeMaps (combine : V → V → V) (m₁ m₂ : K → Option V) : K → Option V :=
  fun k => mergeOpt combine (m₁ k) (m₂ k)

/-- Modelled from the spec: section 4.1 contract
`reduce(records, combine, partitionCount)`.  Records are assigned to
partitions by a deterministic function of the key (`hashK` modulo the
partition count), each partition is locally combined, and the partial
mappings are merged. -/
def reduce (hashK : K → Nat) (records : List (K × V)) (combine : V → V → V)
    (p : Nat) : K → Option V :=
  ((List.range p).map
      (fun i => localAgg combine (records.filter (fun r => hashK r.1 % p == i)))).foldl
    (mergeMaps combine) (fun _ => none)

/-- The values carried by records whose key is `k`, in record order. -/
def valuesFor (k : K) (xs : List (K × V)) : List V :=
  (xs.filter (fun r => r.1 == k)).map Prod.snd

/-- One accumulation step on an optional accumulator. -/
def step (combine : V → V → V) (o : Option V) (v : V) : Option V :=
  match o with
  | none => some v
  | some w => some (combine w v)

theorem insertKV_apply_eq (combine : V → V → V) (m : K → Option V) (r : K × V) (k : K)
    (hk : r.1 = k) : insertKV combine m r k = step combine (m k) r.2 := by
  subst hk
  simp only [insertKV, if_pos rfl, step]
  cases m r.1 <;> rfl

theorem insertKV_apply_ne (combine : V → V → V) (m : K → Option V) (r : K × V) (k : K)
    (hk : ¬r.1 = k) : insertKV combine m r k = m k := by
  simp only [insertKV]
  rw [if_neg]
  intro h
  exact hk h.symm

theorem valuesFor_cons_eq (r : K × V) (xs : List (K × V)) (k : K) (hk : r.1 = k) :
    valuesFor k (r :: xs) = r.2 :: valuesFor k xs := by
  simp [valuesFor, List.filter_cons, hk]

theorem valuesFor_cons_ne (r : K × V) (xs : List (K × V)) (k : K) (hk : ¬r.1 = k) :
    valuesFor k (r :: xs) = valuesFor k xs := by
  simp [valuesFor, List.filter_cons, hk]

theorem foldl_insertKV_apply (combine : V → V → V) :
    ∀ (xs : List (K × V)) (m : K → Option V) (k : K),
      (xs.foldl (insertKV combine) m) k = (valuesFor k xs).foldl (step combine) (m k) := by
  intro xs
  induction xs with
  | nil => intro m k; rfl
  | cons r xs ih =>
    intro m k
    by_cases hk : r.1 = k
    · rw [valuesFor_cons_eq r xs k hk, List.foldl_cons, List.foldl_cons, ih,
        insertKV_apply_eq combine m r k hk]
    · rw [valuesFor_cons_ne r xs k hk, List.foldl_cons, ih,
        insertKV_apply_ne combine m r k hk]

theorem localAgg_apply (combine : V → V → V) (xs : List (K × V)) (k : K) :
    localAgg combine xs k = (valuesFor k xs).foldl (step combine) none := by
  unfold localAgg
  rw [foldl_insertKV_apply]

theorem mergeOpt_none_right (combine : V → V → V) (o : Option V) :
    mergeOpt combine o none = o := by
  cases o <;> rfl

theorem foldl_mergeMaps_apply (combine : V → V → V) :
    ∀ (ms : List (K → Option V)) (m : K → Option V) (k : K),
      (ms.foldl (mergeMaps combine) m) k = (ms.map (fun f => f k)).foldl (mergeOpt combine) (m k) := by
  intro ms
  induction ms with
  | nil => intro m k; rfl
  | cons f ms ih =>
    intro m k
    rw [List.foldl_cons, List.map_cons, List.foldl_cons, ih]
    rfl

theorem foldl_mergeOpt_all_none (combine : V → V → V) :
    ∀ (l : List (Option V)) (o : Option V), (∀ x ∈ l, x = none) →
      l.foldl (mergeOpt combine) o = o := by
  intro l
  induction l with
  | nil => intro o _; rfl
  | cons x l ih =>
    intro o h
    rw [List.foldl_cons, h x (List.mem_cons_self x l), mergeOpt_none_right,
      ih o (fun y hy => h y (List.mem_cons_of_mem x hy))]

theorem foldl_mergeOpt_range_single (combine : V → V → V) :
    ∀ (n : Nat) (f : Nat → Option V) (i₀ : Nat), i₀ < n →
      (∀ j, j < n → j ≠ i₀ → f j = none) →
      ((List.range n).map f).foldl (mergeOpt combine) none = f i₀ := by
  intro n
  induction n with
  | zero => intro f i₀ h; omega
  | succ n ih =>
    intro f i₀ hi hnone
    rw [List.range_succ, List.map_append, List.foldl_append]
    by_cases hlast : i₀ = n
    · subst hlast
      have h1 : ((List.range i₀).map f).foldl (mergeOpt combine) none = none := by
        apply foldl_mergeOpt_all_none
        intro x hx
        obtain ⟨j, hj, rfl⟩ := List.mem_map.mp hx
        have hj' := List.mem_range.mp hj
        exact hnone j (Nat.lt_succ_of_lt hj') (Nat.ne_of_lt hj')
      rw [h1]
      simp only [List.map_cons, List.map_nil, List.foldl_cons, List.foldl_nil]
      rfl
    · have h1 : ((List.range n).map f).foldl (mergeOpt combine) none = f i₀ :=
        ih f i₀ (by omega) (fun j hj hne => hnone j (Nat.lt_succ_of_lt hj) hne)
      rw [h1]
      simp only [List.map_cons, List.map_nil, List.foldl_cons, List.foldl_nil]
      rw [hnone n (Nat.lt_succ_self n) (fun h => hlast h.symm), mergeOpt_none_right]

theorem valuesFor_filter_of_true (k : K) (q : K × V → Bool) (xs : List (K × V))
    (hq : ∀ r : K × V, r.1 = k → q r = true) :
    valuesFor k (xs.filter q) = valuesFor k xs := by
  induction xs with
  | nil => rfl
  | cons r xs ih =>
    by_cases hk : r.1 = k
    · rw [List.filter_cons, hq r hk, if_pos (by trivial), valuesFor_cons_eq r _ k hk,
        valuesFor_cons_eq r xs k hk, ih]
    · rw [List.filter_cons, valuesFor_cons_ne r xs k hk, ← ih]
      by_cases hqr : q r = true
      · rw [if_pos (by simpa using hqr), valuesFor_cons_ne r _ k hk]
      · rw [if_neg (by simpa using hqr)]

theorem valuesFor_filter_of_false (k : K) (q : K × V → Bool) (xs : List (K × V))
    (hq : ∀ r : K × V, r.1 = k → q r = false) :
    valuesFor k (xs.filter q) = [] := by
  induction xs with
  | nil => rfl
  | cons r xs ih =>
    rw [List.filter_cons]
    by_cases hqr : q r = true
    · have hk : ¬r.1 = k := fun h => by rw [hq r h] at hqr; exact Bool.false_ne_true hqr
      rw [if_pos (by simpa using hqr), valuesFor_cons_ne r _ k hk, ih]
    · rw [if_neg (by simpa using hqr), ih]

/-- Pointwise value of the partitioned reduce: for any positive partition
count, the aggregate at key `k` is the fold of all values recorded under
`k`, in record order. -/
theorem reduce_apply (hashK : K → Nat) (records : List (K × V)) (combine : V → V → V)
    (p : Nat) (hp : 1 ≤ p) (k : K) :
    reduce hashK records combine p k = (valuesFor k records).foldl (step combine) none := by
  unfold reduce
  rw [foldl_mergeMaps_apply, List.map_map]
  have h0 : ((fun f => f k) ∘ fun i => localAgg combine
        (records.filter (fun r => hashK r.1 % p == i)))
      = fun i => localAgg combine (records.filter (fun r => hashK r.1 % p == i)) k := rfl
  rw [h0]
  have hnone : ∀ j, j < p → j ≠ hashK k % p →
      localAgg combine (records.filter (fun r => hashK r.1 % p == j)) k = none := by
    intro j hj hne
    have hfalse : ∀ r : K × V, r.1 = k → (hashK r.1 % p == j) = false := by
      intro r hr
      rw [hr]
      exact beq_eq_false_iff_ne.mpr (fun h => hne h.symm)
    rw [localAgg_apply, valuesFor_filter_of_false k _ records hfalse]
    rfl
  rw [foldl_mergeOpt_range_single combine p _ (hashK k % p) (Nat.mod_lt _ (by omega)) hnone]
  have htrue : ∀ r : K × V, r.1 = k → (hashK r.1 % p == hashK k % p) = true := by
    intro r hr
    rw [hr]
    exact beq_self_eq_true _
  rw [localAgg_apply, valuesFor_filter_of_true k _ records htrue]

/-- Partition-count invariance of the reducer: any two positive partition
counts produce the same output mapping. -/
theorem reduce_eq_reduce (hashK : K → Nat) (records : List (K × V)) (combine : V → V → V)
    (p q : Nat) (hp : 1 ≤ p) (hq : 1 ≤ q) :
    reduce hashK records combine p = reduce hashK records combine q := by
  funext k
  rw [reduce_apply hashK records combine p hp k, reduce_apply hashK records combine q hq k]

end Reducer

/-- The word-count scenario input of spec section 8. -/
def sampleRecords : List (String × Nat) :=
  [("a", 1), ("b", 1), ("a", 1), ("c", 1), ("b", 1), ("a", 1)]

/-- The expected output mapping of the word-count scenario. -/
def expectedSample : String → Option Nat := fun k =>
  if k = "a" then some 3 else if k = "b" then some 2 else if k = "c" then some 1 else none

theorem reduce_sample (hashK : String → Nat) (p : Nat) (hp : 1 ≤ p) :
    Reducer.reduce hashK sampleRecords (· + ·) p = expectedSample := by
  funext k
  rw [Reducer.reduce_apply hashK sampleRecords (· + ·) p hp k]
  unfold expectedSample
  by_cases ha : k = "a"
  · subst ha; decide
  by_cases hb : k = "b"
  · subst hb; simp only [ha, if_false]; decide
  by_cases hc : k = "c"
  · subst hc; simp only [ha, hb, if_false]; decide
  simp only [ha, hb, hc, if_false]
  show (Reducer.valuesFor k sampleRecords).foldl (Reducer.step (· + ·)) none = none
  unfold sampleRecords
  rw [Reducer.valuesFor_cons_ne _ _ _ (fun h => ha h.symm),
    Reducer.valuesFor_cons_ne _ _ _ (fun h => hb h.symm),
    Reducer.valuesFor_cons_ne _ _ _ (fun h => ha h.symm),
    Reducer.valuesFor_cons_ne _ _ _ (fun h => hc h.symm),
    Reducer.valuesFor_cons_ne _ _ _ (fun h => hb h.symm),
    Reducer.valuesFor_cons_ne _ _ _ (fun h => ha h.symm)]
  rfl

/-- C1: for every finite sequence of key-value records and every associative
and commutative combine function, the reducer's output mapping is identical
for every positive partition count; in particular partition counts 4 and 1
agree. -/
theorem claim_C1 {K V : Type} [DecidableEq K] (hashK : K → Nat)
    (records : List (K × V)) (combine : V → V → V)
    (hassoc : ∀ a b c, combine (combine a b) c = combine a (combine b c))
    (hcomm : ∀ a b, combine a b = combine b a)
    (p q : Nat) (hp : 1 ≤ p) (hq : 1 ≤ q) :
    Reducer.reduce hashK records combine p = Reducer.reduce hashK records combine q ∧
    Reducer.reduce hashK records combine 4 = Reducer.reduce hashK records combine 1 :=
  ⟨Reducer.reduce_eq_reduce hashK records combine p q hp hq,
   Reducer.reduce_eq_reduce hashK records combine 4 1 (by omega) (by omega)⟩

theorem claim_C1_witness :
    (∀ a b c : Nat, (a + b) + c = a + (b + c)) ∧ (∀ a b : Nat, a + b = b + a) ∧
    (1 : Nat) ≤ 4 ∧ (1 : Nat) ≤ 1 ∧
    (Reducer.reduce id [(0, 1), (1, 2), (0, 3)] (· + ·) 4 =
        Reducer.reduce id [(0, 1), (1, 2), (0, 3)] (· + ·) 1 ∧
      Reducer.reduce id [(0, 1), (1, 2), (0, 3)] (· + ·) 4 =
        Reducer.reduce id [(0, 1), (1, 2), (0, 3)] (· + ·) 1) :=
  ⟨Nat.add_assoc, Nat.add_comm, by omega, by omega,
   claim_C1 id [(0, 1), (1, 2), (0, 3)] (· + ·) Nat.add_assoc Nat.add_comm 4 1
     (by omega) (by omega)⟩

/-- C3: on the input `[("a",1),("b",1),("a",1),("c",1),("b",1),("a",1)]` with
addition as the combine function, the reducer returns the mapping
`{"a" : 3, "b" : 2, "c" : 1}`, for every positive partition count and in
particular for 2 partitions. -/
theorem claim_C3 (hashK : String → Nat) (p : Nat) (hp : 1 ≤ p) :
    Reducer.reduce hashK sampleRecords (· + ·) p = expectedSample ∧
    Reducer.reduce hashK sampleRecords (· + ·) 2 = expectedSample :=
  ⟨reduce_sample hashK p hp, reduce_sample hashK 2 (by omega)⟩

theorem claim_C3_witness :
    (1 : Nat) ≤ 1 ∧
    (Reducer.reduce String.length sampleRecords (· + ·) 1 = expectedSample ∧
      Reducer.reduce String.length sampleRecords (· + ·) 2 = expectedSample) :=
  ⟨by omega, claim_C3 String.length 1 (by omega)⟩

/-- C9: the reduce operation is deterministic and side-effect free: it is a
pure function of its inputs, so any two runs on equal records, equal combine
functions and equal partition counts return equal output mappings. -/
theorem claim_C9 {K V : Type} [DecidableEq K] (hashK : K → Nat)
    (r₁ r₂ : List (K × V)) (c₁ c₂ : V → V → V) (p₁ p₂ : Nat)
    (hr : r₁ = r₂) (hc : c₁ = c₂) (hp : p₁ = p₂) :
    Reducer.reduce hashK r₁ c₁ p₁ = Reducer.reduce hashK r₂ c₂ p₂ := by
  rw [hr, hc, hp]

theorem claim_C9_witness :
    Reducer.reduce id [(0, 5)] (· + ·) 2 = Reducer.reduce id [(0, 5)] (· + ·) 2 :=
  claim_C9 id [(0, 5)] [(0, 5)] (· + ·) (· + ·) 2 2 rfl rfl rfl

theorem reduce_ne_none_imp_mem {K V : Type} [DecidableEq K] (hashK : K → Nat)
    (records : List (K × V)) (combine : V → V → V) (p : Nat) (hp : 1 ≤ p) (k : K)
    (h : Reducer.reduce hashK records combine p k ≠ none) : ∃ v, (k, v) ∈ records := by
  rw [Reducer.reduce_apply hashK records combine p hp k] at h
  cases hv : Reducer.valuesFor k records with
  | nil => rw [hv] at h; exact absurd rfl h
  | cons v vs =>
    refine ⟨v, ?_⟩
    have hmem : v ∈ Reducer.valuesFor k records := hv ▸ List.mem_cons_self v vs
    rw [Reducer.valuesFor] at hmem
    obtain ⟨r, hr, hrv⟩ := List.mem_map.mp hmem
    rw [List.mem_filter] at hr
    have hk : r.1 = k := by simpa using hr.2
    have : (k, v) = r := by
      rw [← hk, ← hrv]
    exact this ▸ hr.1

namespace Display

variable {K V : Type} [DecidableEq K] [LinearOrder V]

/-- Modelled from the spec: design note on the map-then-sort pattern.  Fold
one record into an association list kept in first-occurrence key order,
applying `combine` when the key is already present. -/
def insertEntry (combine : V → V → V) : List (K × V) → K × V → List (K × V)
  | [], r => [r]
  | e :: rest, r =>
    if r.1 = e.1 then (e.1, combine e.2 r.2) :: rest else e :: insertEntry combine rest r

/-- Modelled from the spec: aggregate the records into a deterministic
mapping, materialised as an association list in first-occurrence key order. -/
def reduceEntries (combine : V → V → V) (records : List (K × V)) : List (K × V) :=
  records.foldl (insertEntry combine) []

/-- Lookup in an association list. -/
def entryLookup : List (K × V) → K → Option V
  | [], _ => none
  | e :: rest, k => if e.1 = k then some e.2 else entryLookup rest k

/-- Modelled from the spec: one step of the presentation sort.  Insert an
entry into a list kept in descending value order, moving it past an entry
only when that entry's value is strictly smaller (which makes the sort
stable). -/
def insertDesc (x : K × V) : List (K × V) → List (K × V)
  | [] => [x]
  | y :: ys => if y.2 < x.2 then x :: y :: ys else y :: insertDesc x ys

/-- Tail of the stable insertion sort: insert the remaining entries, in
order, into the sorted accumulator. -/
def sortGo : List (K × V) → List (K × V) → List (K × V)
  | acc, [] => acc
  | acc, x :: xs => sortGo (insertDesc x acc) xs

/-- Modelled from the spec: the separate, stable presentation sort by
descending aggregate value (the notebook's `sortBy(lambda x: -x[1])`, whose
engine implementation is not in the repository). -/
def sortByValueDesc (l : List (K × V)) : List (K × V) :=
  sortGo [] l

/-- Modelled from the spec: the displayed sequence, a stable descending sort
of the aggregated mapping's entries. -/
def topCounts (combine : V → V → V) (records : List (K × V)) : List (K × V) :=
  sortByValueDesc (reduceEntries combine records)

theorem mem_insertDesc (x z : K × V) :
    ∀ l : List (K × V), z ∈ insertDesc x l → z = x ∨ z ∈ l := by
  intro l
  induction l with
  | nil =>
    intro h
    rw [insertDesc] at h
    rcases List.mem_singleton.mp h with h'
    exact Or.inl h'
  | cons y ys ih =>
    intro h
    rw [insertDesc] at h
    by_cases hlt : y.2 < x.2
    · rw [if_pos hlt] at h
      rcases List.mem_cons.mp h with h' | h'
      · exact Or.inl h'
      · exact Or.inr h'
    · rw [if_neg hlt] at h
      rcases List.mem_cons.mp h with h' | h'
      · exact Or.inr (h' ▸ List.mem_cons_self y ys)
      · rcases ih h' with h'' | h''
        · exact Or.inl h''
        · exact Or.inr (List.mem_cons_of_mem y h'')

theorem pairwise_insertDesc (x : K × V) :
    ∀ l : List (K × V), List.Pairwise (fun a b : K × V => b.2 ≤ a.2) l →
      List.Pairwise (fun a b : K × V => b.2 ≤ a.2) (insertDesc x l) := by
  intro l
  induction l with
  | nil => intro _; simp [insertDesc]
  | cons y ys ih =>
    intro h
    rcases List.pairwise_cons.mp h with ⟨hy, hys⟩
    rw [insertDesc]
    by_cases hlt : y.2 < x.2
    · rw [if_pos hlt]
      refine List.pairwise_cons.mpr ⟨?_, h⟩
      intro z hz
      rcases List.mem_cons.mp hz with h' | h'
      · exact h' ▸ le_of_lt hlt
      · exact le_trans (hy z h') (le_of_lt hlt)
    · rw [if_neg hlt]
      refine List.pairwise_cons.mpr ⟨?_, ih hys⟩
      intro z hz
      rcases mem_insertDesc x z ys hz with h' | h'
      · exact h' ▸ le_of_not_lt hlt
      · exact hy z h'

theorem pairwise_sortGo :
    ∀ (xs acc : List (K × V)), List.Pairwise (fun a b : K × V => b.2 ≤ a.2) acc →
      List.Pairwise (fun a b : K × V => b.2 ≤ a.2) (sortGo acc xs) := by
  intro xs
  induction xs with
  | nil => intro acc h; exact h
  | cons x xs ih => intro acc h; exact ih (insertDesc x acc) (pairwise_insertDesc x acc h)

theorem filter_insertDesc (c : V) (x : K × V) :
    ∀ l : List (K × V), List.Pairwise (fun a b : K × V => b.2 ≤ a.2) l →
      (insertDesc x l).filter (fun e => decide (e.2 = c)) =
        (if x.2 = c then l.filter (fun e => decide (e.2 = c)) ++ [x]
         else l.filter (fun e => decide (e.2 = c))) := by
  intro l
  induction l with
  | nil =>
    intro _
    rw [insertDesc]
    by_cases hx : x.2 = c <;> simp [List.filter_cons, hx]
  | cons y ys ih =>
    intro h
    rcases List.pairwise_cons.mp h with ⟨hy, hys⟩
    rw [insertDesc]
    by_cases hlt : y.2 < x.2
    · rw [if_pos hlt]
      by_cases hx : x.2 = c
      · have hnil : (y :: ys).filter (fun e => decide (e.2 = c)) = [] := by
          rw [List.filter_eq_nil_iff]
          intro z hz
          simp only [decide_eq_true_eq]
          rcases List.mem_cons.mp hz with h' | h'
          · rw [h']
            exact ne_of_lt (hx ▸ hlt)
          · exact ne_of_lt (lt_of_le_of_lt (hy z h') (hx ▸ hlt))
        rw [List.filter_cons, if_pos (by simpa using hx), hnil, if_pos hx, List.nil_append]
      · rw [List.filter_cons, if_neg (by simpa using hx), if_neg hx]
    · rw [if_neg hlt]
      by_cases hycase : y.2 = c <;> by_cases hx : x.2 = c <;>
        simp [List.filter_cons, hycase, hx, ih hys]

theorem filter_sortGo (c : V) :
    ∀ (xs acc : List (K × V)), List.Pairwise (fun a b : K × V => b.2 ≤ a.2) acc →
      (sortGo acc xs).filter (fun e => decide (e.2 = c)) =
        acc.filter (fun e => decide (e.2 = c)) ++ xs.filter (fun e => decide (e.2 = c)) := by
  intro xs
  induction xs with
  | nil => intro acc h; simp [sortGo]
  | cons x xs ih =>
    intro acc h
    rw [sortGo, ih (insertDesc x acc) (pairwise_insertDesc x acc h),
      filter_insertDesc c x acc h]
    by_cases hx : x.2 = c
    · rw [if_pos hx, List.filter_cons, if_pos (by simpa using hx), List.append_assoc,
        List.singleton_append]
    · rw [if_neg hx, List.filter_cons, if_neg (by simpa using hx)]

theorem entryLookup_insertEntry (combine : V → V → V) (r : K × V) (k : K) :
    ∀ l : List (K × V),
      entryLookup (insertEntry combine l r) k =
        (if r.1 = k then Reducer.step combine (entryLookup l k) r.2 else entryLookup l k) := by
  intro l
  induction l with
  | nil =>
    by_cases hk : r.1 = k <;> simp [insertEntry, entryLookup, Reducer.step, hk]
  | cons e rest ih =>
    by_cases he : r.1 = e.1
    · by_cases hk : r.1 = k
      · have hek : e.1 = k := he.symm.trans hk
        simp [insertEntry, entryLookup, Reducer.step, he, hk, hek]
      · have hek : ¬e.1 = k := fun h => hk (he.trans h)
        simp [insertEntry, entryLookup, he, hk, hek]
    · by_cases hek : e.1 = k
      · have hk : ¬r.1 = k := fun h => he (h.trans hek.symm)
        simp [insertEntry, entryLookup, he, hk, hek]
      · simp [insertEntry, entryLookup, he, hek, ih]

theorem entryLookup_foldl_insertEntry (combine : V → V → V) (k : K) :
    ∀ (xs : List (K × V)) (acc : List (K × V)),
      entryLookup (xs.foldl (insertEntry combine) acc) k =
        (Reducer.valuesFor k xs).foldl (Reducer.step combine) (entryLookup acc k) := by
  intro xs
  induction xs with
  | nil => intro acc; rfl
  | cons r xs ih =>
    intro acc
    by_cases hk : r.1 = k
    · rw [Reducer.valuesFor_cons_eq r xs k hk, List.foldl_cons, List.foldl_cons, ih,
        entryLookup_insertEntry, if_pos hk]
    · rw [Reducer.valuesFor_cons_ne r xs k hk, List.foldl_cons, ih,
        entryLookup_insertEntry, if_neg hk]

theorem entryLookup_reduceEntries (hashK : K → Nat) (combine : V → V → V)
    (records : List (K × V)) (k : K) :
    entryLookup (reduceEntries combine records) k = Reducer.reduce hashK records combine 1 k := by
  rw [reduceEntries, entryLookup_foldl_insertEntry,
    Reducer.reduce_apply hashK records combine 1 (by omega) k]
  rfl

end Display

/-- C7: the reducer's API result is an unordered mapping; the displayed
sorted view is produced by a separate stable sort for presentation: it is
sorted by descending aggregate value, entries of equal value keep their
original first-insertion order, the entry list agrees pointwise with the
reduce mapping, and the displayed sequence is a function of the input
records alone. -/
theorem claim_C7 {K V : Type} [DecidableEq K] [LinearOrder V] (hashK : K → Nat)
    (records : List (K × V)) (combine : V → V → V) :
    List.Pairwise (fun a b : K × V => b.2 ≤ a.2) (Display.topCounts combine records) ∧
    (∀ c : V, (Display.topCounts combine records).filter (fun e => decide (e.2 = c)) =
        (Display.reduceEntries combine records).filter (fun e => decide (e.2 = c))) ∧
    (∀ k : K, Display.entryLookup (Display.reduceEntries combine records) k =
        Reducer.reduce hashK records combine 1 k) := by
  refine ⟨Display.pairwise_sortGo _ [] List.Pairwise.nil, ?_, ?_⟩
  · intro c
    have h := Display.filter_sortGo c (Display.reduceEntries combine records) []
      List.Pairwise.nil
    simpa using h
  · intro k
    exact Display.entryLookup_reduceEntries hashK combine records k

namespace WordCount

/-- The stop-word set of the notebook (cell `sc_dict`). -/
def stopwords : List String :=
  ["the", "to", "a", "and", "his", "of", "in", "with", "was", ">the",
   "for", "as", "had", "her", "on", "he", "at", "by", "an", "that", "him", "into", "then", "who",
   "from", "when", "she", "would"]

/-- The notebook's `x.split(" ")` at the character level: split on every
single space, keeping the empty fragments the naive splitting produces. -/
def splitSp : List Char → List (List Char)
  | [] => [[]]
  | c :: cs =>
    match splitSp cs with
    | [] => [[]]
    | w :: ws => if c = ' ' then [] :: w :: ws else (c :: w) :: ws

/-- The notebook's `lines.flatMap(lambda x: x.split(" "))`. -/
def tokenize (lines : List String) : List String :=
  lines.flatMap (fun l => (splitSp l.data).map String.mk)

/-- The notebook's `x.lower()`: ASCII lower-casing, character by character
(the underlying map of `String.toLower`). -/
def strLower (s : String) : String :=
  ⟨s.data.map Char.toLower⟩

/-- The notebook's `words.map(lambda x: x.lower())`. -/
def lowerWords (lines : List String) : List String :=
  (tokenize lines).map strLower

/-- The notebook's `words.filter(lambda x: len(x) > 0 and not x in stopwords.value)`. -/
def filteredWords (lines : List String) : List String :=
  (lowerWords lines).filter (fun x => decide (0 < x.length) && !(stopwords.contains x))

/-- The notebook's `counts = words.map(lambda x: (x,1)).reduceByKey(lambda x,y: x+y)`. -/
def wcCounts (hashK : String → Nat) (lines : List String) (p : Nat) : String → Option Nat :=
  Reducer.reduce hashK ((filteredWords lines).map (fun x => (x, 1))) (· + ·) p

theorem toNat_ofNat_valid (n : Nat) (h : n.isValidChar) : (Char.ofNat n).toNat = n := by
  rw [Char.ofNat, dif_pos h]
  rfl

theorem toLower_not_isUpper (c : Char) : (Char.toLower c).isUpper = false := by
  rw [Char.toLower]
  by_cases h : c.toNat ≥ 65 ∧ c.toNat ≤ 90
  · rw [if_pos h]
    have hval : (Char.ofNat (c.toNat + 32)).toNat = c.toNat + 32 :=
      toNat_ofNat_valid _ (Or.inl (by omega))
    simp only [Char.isUpper, Bool.and_eq_false_iff, decide_eq_false_iff_not]
    right
    intro hle
    have h90 : (Char.ofNat (c.toNat + 32)).toNat ≤ 90 := hle
    omega
  · rw [if_neg h]
    simp only [Char.isUpper, Bool.and_eq_false_iff, decide_eq_false_iff_not]
    by_cases h65 : 65 ≤ c.toNat
    · right
      intro hle
      have h90 : c.toNat ≤ 90 := hle
      exact h ⟨h65, h90⟩
    · left
      intro hle
      have h65' : 65 ≤ c.toNat := hle
      exact h65 h65'

end WordCount

/-- C10: every key of the word-count output mapping comes from the filtered
word list, is non-empty, is no stop word, and contains no upper-case
letter. -/
theorem claim_C10 (hashK : String → Nat) (lines : List String) (p : Nat) (hp : 1 ≤ p)
    (k : String) (hk : WordCount.wcCounts hashK lines p k ≠ none) :
    k ∈ WordCount.filteredWords lines ∧ 0 < k.length ∧ k ∉ WordCount.stopwords ∧
      ∀ c ∈ k.data, c.isUpper = false := by
  obtain ⟨v, hv⟩ := reduce_ne_none_imp_mem hashK _ (· + ·) p hp k hk
  obtain ⟨x, hx, hxk⟩ := List.mem_map.mp hv
  have hkx : x = k := congrArg Prod.fst hxk
  subst hkx
  have hxmem := hx
  rw [WordCount.filteredWords, List.mem_filter] at hx
  obtain ⟨hmem, hpred⟩ := hx
  rw [Bool.and_eq_true, decide_eq_true_eq, Bool.not_eq_true'] at hpred
  refine ⟨hxmem, hpred.1, ?_, ?_⟩
  · intro hin
    have hcont : WordCount.stopwords.contains x = true := List.elem_iff.mpr hin
    rw [hpred.2] at hcont
    exact Bool.false_ne_true hcont
  · obtain ⟨w, hw, hwk⟩ := List.mem_map.mp hmem
    intro c hc
    rw [← hwk] at hc
    have hc' : c ∈ w.data.map Char.toLower := hc
    obtain ⟨c', hc', rfl⟩ := List.mem_map.mp hc'
    exact WordCount.toLower_not_isUpper c'

theorem claim_C10_witness :
    (1 : Nat) ≤ 1 ∧ WordCount.wcCounts (fun _ => 0) ["Hi hi"] 1 "hi" ≠ none ∧
    ("hi" ∈ WordCount.filteredWords ["Hi hi"] ∧ 0 < "hi".length ∧
      "hi" ∉ WordCount.stopwords ∧ ∀ c ∈ "hi".data, c.isUpper = false) :=
  ⟨by omega, by decide,
   claim_C10 (fun _ => 0) ["Hi hi"] 1 (by omega) "hi" (by decide)⟩

namespace Trainer

/-- Modelled from the spec: the two loss kinds of the trainer contract
(section 4.2). -/
inductive LossKind where
  | squaredWithL1
  | hinge
deriving DecidableEq

/-- Dot product of two rational vectors. -/
def dot (xs ys : List ℚ) : ℚ :=
  (List.zipWith (· * ·) xs ys).sum

/-- A labelled record: (label, features). -/
abbrev LabeledPoint := ℚ × List ℚ

/-- Modelled from the spec: the per-record gradient contribution
(squared-error gradient for regression; hinge subgradient for
classification, with 0/1 labels mapped to ±1). -/
def gradRecord (loss : LossKind) (w : List ℚ) (r : LabeledPoint) : List ℚ :=
  match loss with
  | .squaredWithL1 => r.2.map (fun x => (dot w r.2 - r.1) * x)
  | .hinge =>
    let y := 2 * r.1 - 1
    if y * dot w r.2 < 1 then r.2.map (fun x => (-y) * x) else r.2.map (fun _ => 0)

/-- Modelled from the spec: the global gradient, the associative sum of all
per-record contributions (the per-partition grouping of the sum does not
change it). -/
def sumGrad (loss : LossKind) (dim : Nat) (data : List LabeledPoint) (w : List ℚ) : List ℚ :=
  data.foldl (fun acc r => List.zipWith (· + ·) acc (gradRecord loss w r))
    (List.replicate dim 0)

/-- Modelled from the spec: mean gradient = global gradient sum divided by
the total record count. -/
def meanGrad (loss : LossKind) (dim : Nat) (data : List LabeledPoint) (w : List ℚ) : List ℚ :=
  (sumGrad loss dim data w).map (fun g => g / (data.length : ℚ))

/-- Modelled from the spec: the plain gradient-descent step
`w := w - stepSize * meanGradient`. -/
def gradStep (loss : LossKind) (stepSize : ℚ) (dim : Nat) (data : List LabeledPoint)
    (w : List ℚ) : List ℚ :=
  List.zipWith (fun wi gi => wi - stepSize * gi) w (meanGrad loss dim data w)

/-- Modelled from the spec: the proximal L1 soft-threshold: shrink a
coefficient toward zero by `t`, clamped at zero. -/
def softThreshold (t x : ℚ) : ℚ :=
  if t < x then x - t else if x < -t then x + t else 0

/-- Modelled from the spec: one synchronous training iteration: gradient
step, then (for `squaredWithL1`) the soft-threshold shrinkage with
threshold `stepSize * reg`. -/
def trainStep (loss : LossKind) (stepSize reg : ℚ) (dim : Nat) (data : List LabeledPoint)
    (w : List ℚ) : List ℚ :=
  let g := gradStep loss stepSize dim data w
  match loss with
  | .squaredWithL1 => g.map (softThreshold (stepSize * reg))
  | .hinge => g

/-- Modelled from the spec: the train contract: any record whose feature
vector length mismatches the declared dimensionality is a fatal
configuration error; otherwise iterate from the all-zero vector. -/
def train (loss : LossKind) (stepSize reg : ℚ) (iters dim : Nat)
    (data : List LabeledPoint) : Except String (List ℚ) :=
  if data.all (fun r => r.2.length == dim) then
    Except.ok ((trainStep loss stepSize reg dim data)^[iters] (List.replicate dim 0))
  else
    Except.error "feature dimensionality mismatch"

theorem softThreshold_zero (t : ℚ) (ht : 0 ≤ t) : softThreshold t 0 = 0 := by
  rw [softThreshold, if_neg (by linarith), if_neg (by linarith)]

theorem softThreshold_abs (t x : ℚ) (ht : 0 ≤ t) :
    |softThreshold t x| = max (|x| - t) 0 ∧ 0 ≤ softThreshold t x * x := by
  rw [softThreshold]
  by_cases h1 : t < x
  · rw [if_pos h1]
    have hx : 0 < x := lt_of_le_of_lt ht h1
    rw [abs_of_pos (by linarith), abs_of_pos hx]
    constructor
    · rw [max_eq_left (by linarith)]
    · nlinarith
  · rw [if_neg h1]
    by_cases h2 : x < -t
    · rw [if_pos h2]
      have hx : x < 0 := lt_of_lt_of_le h2 (by linarith)
      rw [abs_of_neg (by linarith), abs_of_neg hx]
      constructor
      · rw [max_eq_left (by linarith)]
        ring
      · nlinarith
    · rw [if_neg h2]
      constructor
      · rw [abs_zero, max_eq_right]
        rcases abs_cases x with ⟨he, _⟩ | ⟨he, _⟩ <;> rw [he] <;> linarith
      · rw [zero_mul]

theorem getD_map_softThreshold (t : ℚ) (ht : 0 ≤ t) (g : List ℚ) (i : Nat) :
    (g.map (softThreshold t)).getD i 0 = softThreshold t (g.getD i 0) := by
  by_cases h : i < g.length
  · rw [List.getD_eq_getElem _ _ (by simpa using h), List.getD_eq_getElem _ _ h,
      List.getElem_map]
  · rw [List.getD_eq_default _ _ (by simpa using not_lt.mp h),
      List.getD_eq_default _ _ (not_lt.mp h), softThreshold_zero t ht]

theorem trainStep_squared_eq (stepSize reg : ℚ) (dim : Nat) (data : List LabeledPoint)
    (w : List ℚ) :
    trainStep .squaredWithL1 stepSize reg dim data w =
      (gradStep .squaredWithL1 stepSize dim data w).map (softThreshold (stepSize * reg)) := rfl

end Trainer

/-- C2: each training iteration performs `w := w - stepSize * meanGradient`
with the mean gradient the global gradient sum divided by the record count
(exactly, for the hinge loss), and for the `squaredWithL1` loss the
gradient step is followed by a per-coefficient shrinkage of exactly
`stepSize * regularizationStrength` toward zero, clamped so a coefficient
never crosses zero. -/
theorem claim_C2 (stepSize reg : ℚ) (dim : Nat) (data : List Trainer.LabeledPoint)
    (w : List ℚ) (hstep : 0 ≤ stepSize) (hreg : 0 ≤ reg) :
    Trainer.gradStep .squaredWithL1 stepSize dim data w =
      List.zipWith (fun wi gi => wi - stepSize * gi) w
        ((Trainer.sumGrad .squaredWithL1 dim data w).map (fun g => g / (data.length : ℚ))) ∧
    Trainer.trainStep .hinge stepSize reg dim data w =
      List.zipWith (fun wi gi => wi - stepSize * gi) w
        ((Trainer.sumGrad .hinge dim data w).map (fun g => g / (data.length : ℚ))) ∧
    (∀ i : Nat,
      |(Trainer.trainStep .squaredWithL1 stepSize reg dim data w).getD i 0| =
        max (|(Trainer.gradStep .squaredWithL1 stepSize dim data w).getD i 0|
          - stepSize * reg) 0 ∧
      0 ≤ (Trainer.trainStep .squaredWithL1 stepSize reg dim data w).getD i 0 *
        (Trainer.gradStep .squaredWithL1 stepSize dim data w).getD i 0) := by
  have ht : 0 ≤ stepSize * reg := mul_nonneg hstep hreg
  refine ⟨rfl, rfl, ?_⟩
  intro i
  rw [Trainer.trainStep_squared_eq, Trainer.getD_map_softThreshold _ ht]
  exact Trainer.softThreshold_abs (stepSize * reg)
    ((Trainer.gradStep .squaredWithL1 stepSize dim data w).getD i 0) ht

theorem claim_C2_witness :
    (0 : ℚ) ≤ 1 ∧ (0 : ℚ) ≤ 1 ∧
    (Trainer.gradStep .squaredWithL1 1 1 [(1, [2])] [0] =
      List.zipWith (fun wi gi => wi - 1 * gi) [0]
        ((Trainer.sumGrad .squaredWithL1 1 [(1, [2])] [0]).map
          (fun g => g / (([(1, [2])] : List Trainer.LabeledPoint).length : ℚ))) ∧
    Trainer.trainStep .hinge 1 1 1 [(1, [2])] [0] =
      List.zipWith (fun wi gi => wi - 1 * gi) [0]
        ((Trainer.sumGrad .hinge 1 [(1, [2])] [0]).map
          (fun g => g / (([(1, [2])] : List Trainer.LabeledPoint).length : ℚ))) ∧
    (∀ i : Nat,
      |(Trainer.trainStep .squaredWithL1 1 1 1 [(1, [2])] [0]).getD i 0| =
        max (|(Trainer.gradStep .squaredWithL1 1 1 [(1, [2])] [0]).getD i 0| - 1 * 1) 0 ∧
      0 ≤ (Trainer.trainStep .squaredWithL1 1 1 1 [(1, [2])] [0]).getD i 0 *
        (Trainer.gradStep .squaredWithL1 1 1 [(1, [2])] [0]).getD i 0)) :=
  ⟨by norm_num, by norm_num, claim_C2 1 1 1 [(1, [2])] [0] (by norm_num) (by norm_num)⟩

/-- C8: the training run returns a weight vector exactly when every record
has the declared dimensionality, and returns a fatal configuration error
exactly when some record's feature vector length mismatches it. -/
theorem claim_C8 (loss : Trainer.LossKind) (stepSize reg : ℚ) (iters dim : Nat)
    (data : List Trainer.LabeledPoint) :
    ((∃ w, Trainer.train loss stepSize reg iters dim data = Except.ok w) ↔
      ∀ r ∈ data, r.2.length = dim) ∧
    ((∃ e, Trainer.train loss stepSize reg iters dim data = Except.error e) ↔
      ∃ r ∈ data, r.2.length ≠ dim) := by
  rw [Trainer.train]
  by_cases h : data.all (fun r => r.2.length == dim) = true
  · rw [if_pos h]
    rw [List.all_eq_true] at h
    constructor
    · constructor
      · intro _ r hr
        simpa using h r hr
      · intro _
        exact ⟨_, rfl⟩
    · constructor
      · intro ⟨e, he⟩
        exact absurd he (by simp)
      · intro ⟨r, hr, hne⟩
        exact absurd (by simpa using h r hr) hne
  · rw [if_neg h]
    rw [List.all_eq_true] at h
    push_neg at h
    obtain ⟨r, hr, hne⟩ := h
    constructor
    · constructor
      · intro ⟨w, hw⟩
        exact absurd hw (by simp)
      · intro hall
        exact absurd (hall r hr) (by simpa using hne)
    · constructor
      · intro _
        exact ⟨r, hr, by simpa using hne⟩
      · intro _
        exact ⟨_, rfl⟩

/-- Modelled from the spec: regression prediction,
`predict(features) = dot(weights, features) + intercept`. -/
def predictReg (w : List ℚ) (intercept : ℚ) (x : List ℚ) : ℚ :=
  Trainer.dot w x + intercept

/-- Modelled from the spec: classification prediction: threshold the same
linear score at zero, returning the binary labels 1.0 / 0.0 the notebook's
classifier requires. -/
def predictCls (w : List ℚ) (intercept : ℚ) (x : List ℚ) : ℚ :=
  if 0 < predictReg w intercept x then 1 else 0

/-- C4: regression prediction returns the linear score
`dot(weights, features) + intercept`; classification prediction applies a
threshold decision to that same score and returns one of exactly the two
binary labels 1 and 0. -/
theorem claim_C4 (w : List ℚ) (intercept : ℚ) (x : List ℚ) :
    predictReg w intercept x = Trainer.dot w x + intercept ∧
    (predictCls w intercept x = 1 ∨ predictCls w intercept x = 0) ∧
    (predictCls w intercept x = 1 ↔ 0 < Trainer.dot w x + intercept) := by
  refine ⟨rfl, ?_, ?_⟩
  · rw [predictCls]
    by_cases h : 0 < predictReg w intercept x
    · exact Or.inl (if_pos h)
    · exact Or.inr (if_neg h)
  · rw [predictCls]
    by_cases h : 0 < predictReg w intercept x
    · rw [if_pos h]
      exact ⟨fun _ => h, fun _ => rfl⟩
    · rw [if_neg h]
      exact ⟨fun h01 => absurd h01 (by norm_num), fun hs => absurd hs h⟩

namespace Metrics

/-- The notebook's
`MSE = predictions.map(lambda (v, p): (v - p)**2).reduce(lambda x, y: x + y) / predictions.count()`;
Python's `reduce` fails on an empty sequence, hence the `Option`. -/
def mseCode (pairs : List (ℚ × ℚ)) : Option ℚ :=
  match pairs.map (fun vp => (vp.1 - vp.2) ^ 2) with
  | [] => none
  | s :: rest => some ((rest.foldl (· + ·) s) / (pairs.length : ℚ))

/-- The spec formula `MSE = mean((label - prediction)^2)`. -/
def mseSpec (pairs : List (ℚ × ℚ)) : ℚ :=
  (pairs.map (fun vp => (vp.1 - vp.2) ^ 2)).sum / (pairs.length : ℚ)

/-- The notebook's `math.sqrt(MSE)`, over the reals. -/
noncomputable def rmse (pairs : List (ℚ × ℚ)) : ℝ :=
  Real.sqrt ((mseSpec pairs : ℚ) : ℝ)

/-- The notebook's
`training_err = iris_preds.filter(lambda (v, p): v != p).count() / float(iris_pts.count())`. -/
def errCode (pairs : List (ℚ × ℚ)) : ℚ :=
  ((pairs.filter (fun vp => vp.1 != vp.2)).length : ℚ) / (pairs.length : ℚ)

/-- The spec formula `classification error = count(predicted != actual) / total`. -/
def errSpec (pairs : List (ℚ × ℚ)) : ℚ :=
  ((pairs.countP (fun vp => decide (vp.2 ≠ vp.1))) : ℚ) / (pairs.length : ℚ)

theorem foldl_add_eq_sum (l : List ℚ) : ∀ s : ℚ, l.foldl (· + ·) s = s + l.sum := by
  induction l with
  | nil => intro s; rw [List.foldl_nil, List.sum_nil, add_zero]
  | cons a l ih =>
    intro s
    rw [List.foldl_cons, ih, List.sum_cons]
    ring

theorem mseSpec_nonneg (pairs : List (ℚ × ℚ)) : 0 ≤ mseSpec pairs := by
  rw [mseSpec]
  apply div_nonneg
  · apply List.sum_nonneg
    intro q hq
    obtain ⟨vp, _, rfl⟩ := List.mem_map.mp hq
    positivity
  · positivity

end Metrics

/-- C5: the notebook's metric computations agree with the spec's fixed
formulas: MSE is the mean of the squared label-prediction differences, the
classification error is the fraction of records whose prediction differs
from the label, and RMSE is the nonnegative square root of the MSE. -/
theorem claim_C5 (pairs : List (ℚ × ℚ)) (hne : pairs ≠ []) :
    Metrics.mseCode pairs = some (Metrics.mseSpec pairs) ∧
    Metrics.errCode pairs = Metrics.errSpec pairs ∧
    Metrics.rmse pairs ^ 2 = ((Metrics.mseSpec pairs : ℚ) : ℝ) ∧
    0 ≤ Metrics.rmse pairs := by
  refine ⟨?_, ?_, ?_, ?_⟩
  · rw [Metrics.mseCode, Metrics.mseSpec]
    cases hp : pairs.map (fun vp => (vp.1 - vp.2) ^ 2) with
    | nil => exact absurd (List.map_eq_nil_iff.mp hp) hne
    | cons s rest =>
      simp only [Metrics.foldl_add_eq_sum, List.sum_cons]
  · rw [Metrics.errCode, Metrics.errSpec, List.countP_eq_length_filter]
    have hfil : pairs.filter (fun vp => vp.1 != vp.2) =
        pairs.filter (fun vp => decide (vp.2 ≠ vp.1)) := by
      apply List.filter_congr
      intro vp _
      by_cases h : vp.1 = vp.2
      · simp [h]
      · simp [h, Ne.symm h]
    rw [hfil]
  · exact Real.sq_sqrt (by exact_mod_cast Metrics.mseSpec_nonneg pairs)
  · exact Real.sqrt_nonneg _

theorem claim_C5_witness :
    ([((3 : ℚ), (1 : ℚ))] ≠ []) ∧
    (Metrics.mseCode [((3 : ℚ), (1 : ℚ))] = some (Metrics.mseSpec [((3 : ℚ), (1 : ℚ))]) ∧
     Metrics.errCode [((3 : ℚ), (1 : ℚ))] = Metrics.errSpec [((3 : ℚ), (1 : ℚ))] ∧
     Metrics.rmse [((3 : ℚ), (1 : ℚ))] ^ 2 = ((Metrics.mseSpec [((3 : ℚ), (1 : ℚ))] : ℚ) : ℝ) ∧
     0 ≤ Metrics.rmse [((3 : ℚ), (1 : ℚ))]) :=
  ⟨by simp, claim_C5 [((3 : ℚ), (1 : ℚ))] (by simp)⟩

namespace Scaler

/-- Modelled from the spec: per-feature standardisation `(x - mean) / std`
using statistics computed once over the full feature population. -/
def transform (xs means stds : List ℚ) : List ℚ :=
  List.zipWith (fun a s => a / s) (List.zipWith (fun x m => x - m) xs means) stds

/-- Modelled from the spec: the inverse scaling `x * std + mean`. -/
def invTransform (ts means stds : List ℚ) : List ℚ :=
  List.zipWith (fun a m => a + m) (List.zipWith (fun t s => t * s) ts stds) means

end Scaler

/-- C6: for every feature vector with per-feature means and positive
per-feature standard deviations, the scaling transform `(x - mean) / std`
followed by the inverse transform `x * std + mean` reproduces the original
values exactly in rational arithmetic. -/
theorem claim_C6 (xs means stds : List ℚ) (h1 : xs.length = means.length)
    (h2 : means.length = stds.length) (hs : ∀ s ∈ stds, 0 < s) :
    Scaler.invTransform (Scaler.transform xs means stds) means stds = xs := by
  induction xs generalizing means stds with
  | nil =>
    cases means with
    | nil => rfl
    | cons m ms => exact absurd h1 (by simp)
  | cons x xs ih =>
    cases means with
    | nil => exact absurd h1 (by simp)
    | cons m ms =>
      cases stds with
      | nil => exact absurd h2 (by simp)
      | cons s ss =>
        have hs0 : (0 : ℚ) < s := hs s (List.mem_cons_self s ss)
        have hrest : ∀ t ∈ ss, (0 : ℚ) < t := fun t ht => hs t (List.mem_cons_of_mem s ht)
        have hx := ih ms ss (by simpa using h1) (by simpa using h2) hrest
        rw [Scaler.transform, Scaler.invTransform] at hx ⊢
        simp only [List.zipWith_cons_cons]
        rw [hx]
        congr 1
        field_simp

theorem claim_C6_witness :
    ([(4 : ℚ)].length = [(1 : ℚ)].length ∧ [(1 : ℚ)].length = [(2 : ℚ)].length ∧
      (∀ s ∈ [(2 : ℚ)], 0 < s)) ∧
    Scaler.invTransform (Scaler.transform [4] [1] [2]) [1] [2] = [4] :=
  ⟨⟨rfl, rfl, by norm_num⟩,
   claim_C6 [4] [1] [2] rfl rfl (by norm_num)⟩
